import Mathlib

/-!
Shallow embedding of jtoa.c, a JPEG-to-ASCII converter.

Modelling conventions: C floats are modelled as rationals; the C cast
(int)(x) is truncation toward zero; C arrays are total functions from
indices; the JPEG decoding library is abstracted as a function giving
the samples of each source scanline.  Names follow the C source.
-/

namespace Jtoa

/-- The C cast (int)(x) on a nonnegative-or-negative rational:
truncation toward zero. -/
def CINT (x : ℚ) : ℤ := if 0 ≤ x then ⌊x⌋ else ⌈x⌉

/-- The C macro ROUND(x) = (int)(0.5f + x) from jtoa.c line 7. -/
def ROUND (x : ℚ) : ℤ := CINT (1/2 + x)

/-- The default palette string of jtoa.c (line 33); \x27 is the
ASCII apostrophe character. -/
def default_palette : String := "   ...\x27,;:clodxkO0KXNWM"

/-- The Image struct of jtoa.c (lines 9-17).  pixel is the dense
width*height accumulation grid (row-major, index = row*width+col),
yadds counts source-row contributions per destination row (only ever
incremented from zero, hence ℕ), lookup_resx maps a destination column
to a source sample offset in component units. -/
structure Image where
  width : ℕ
  height : ℕ
  pixel : ℕ → ℚ
  yadds : ℕ → ℕ
  resize_y : ℚ
  resize_x : ℚ
  lookup_resx : ℕ → ℤ

/-- malloc_image (jtoa.c lines 216-240): allocates the arrays and sets
width and height from the resolved output dimensions.  Fresh memory is
modelled as zero; the ratio fields are set later by init_image. -/
def malloc_image (w h : ℕ) : Image :=
  { width := w, height := h, pixel := fun _ => 0, yadds := fun _ => 0,
    resize_y := 0, resize_x := 0, lookup_resx := fun _ => 0 }

/-- clear (jtoa.c lines 154-157): zeroes the pixel grid and the yadds
counters. -/
def clear (i : Image) : Image :=
  { i with pixel := fun _ => 0, yadds := fun _ => 0 }

/-- init_image (jtoa.c lines 242-251): sets the resize ratios and
builds the lookup_resx table;
lookup_resx[x] = (int)((float)x * resize_x) * out_color_components. -/
def init_image (i : Image) (jpg_width jpg_height comps : ℕ) : Image :=
  let rx : ℚ := (jpg_width : ℚ) / (i.width : ℚ)
  { i with resize_y := ((i.height : ℚ) - 1) / ((jpg_height : ℚ) - 1),
           resize_x := rx,
           lookup_resx := fun dst_x => CINT ((dst_x : ℚ) * rx) * comps }

/-- The denominators of the two divisions performed by init_image:
resize_y divides by (output_height - 1) and resize_x (also used for
every lookup_resx entry) divides by the destination width. -/
def init_image_divisors (i : Image) (jpg_height : ℕ) : List ℚ :=
  [(jpg_height : ℚ) - 1, (i.width : ℚ)]

/-- intensity (jtoa.c lines 172-181): sum of the components of one
sample divided by 255*components. -/
def intensity (source : ℕ → ℕ) (off : ℕ) (components : ℕ) : ℚ :=
  (∑ c ∈ Finset.range components, (source (off + c) : ℚ)) / (255 * components)

/-- normalize (jtoa.c lines 159-170): for every cell of every
destination row whose yadds count is nonzero, divide the cell by that
count; rows with zero count are left unmodified. -/
def normalize (i : Image) : Image :=
  { i with pixel := fun idx =>
      if idx < i.width * i.height ∧ i.yadds (idx / i.width) ≠ 0 then
        i.pixel idx / (i.yadds (idx / i.width) : ℚ)
      else i.pixel idx }

/-- The divisors actually used by normalize: the nonzero yadds counts
of the rows of the grid (zero-count rows are skipped). -/
def normalize_divisors (i : Image) : List ℚ :=
  ((List.range i.height).filter (fun y => i.yadds y ≠ 0)).map
    (fun y => (i.yadds y : ℚ))

/-- The inner for-loop body of process_scanline (jtoa.c lines 200-203):
add contrib x to every cell x of destination row row. -/
def add_row (w : ℕ) (contrib : ℕ → ℚ) (row : ℕ) (pixel : ℕ → ℚ) : ℕ → ℚ :=
  fun idx =>
    if row * w ≤ idx ∧ idx < row * w + w then pixel idx + contrib (idx - row * w)
    else pixel idx

/-- Increment of yadds at the cursor row (jtoa.c line 205). -/
def bump (yadds : ℕ → ℕ) (row : ℕ) : ℕ → ℕ :=
  fun d => if d = row then yadds d + 1 else yadds d

/-- The while-loop of process_scanline (jtoa.c lines 196-206), with the
iteration count precomputed: starting at cursor lasty it adds the
contribution row by row, advancing the cursor. -/
def scan_loop (w : ℕ) (contrib : ℕ → ℚ) :
    ℕ → ℕ → (ℕ → ℚ) × (ℕ → ℕ) → (ℕ → ℚ) × (ℕ → ℕ)
  | 0, _, st => st
  | fuel+1, lasty, st =>
      scan_loop w contrib fuel (lasty + 1) (add_row w contrib lasty st.1, bump st.2 lasty)

/-- process_scanline (jtoa.c lines 192-208).  The static cursor lasty
is threaded explicitly (it is NOT a field of Image in the C source: it
is a function-local static retained across calls and across images).
row is jpg->output_scanline - 1.  The while-loop runs while
lasty <= y, i.e. (y + 1 - lasty) times, and afterwards the static is
set back to y, which is the second component of the result. -/
def process_scanline (i : Image) (lasty : ℕ) (row : ℕ)
    (scanline : ℕ → ℕ) (comps : ℕ) : Image × ℕ :=
  let y : ℤ := ROUND (i.resize_y * row)
  let st := scan_loop i.width
      (fun x => intensity scanline (i.lookup_resx x).toNat comps)
      (y + 1 - lasty).toNat lasty (i.pixel, i.yadds)
  ({ i with pixel := st.1, yadds := st.2 }, y.toNat)

/-- The scanline-reading loop of decompress (jtoa.c lines 279-282):
process source rows 0..n-1 in order, threading the cursor. -/
def process_rows (scanOf : ℕ → ℕ → ℕ) (comps : ℕ) :
    ℕ → Image × ℕ → Image × ℕ
  | 0, st => st
  | n+1, st =>
      let st' := process_rows scanOf comps n st
      process_scanline st'.1 st'.2 n (scanOf n) comps

/-- The per-image pipeline of decompress (jtoa.c lines 253-293), after
the output dimensions have been resolved: allocate and clear the grid,
set up the ratios and lookup table, consume every scanline, normalize.
The cursor lasty0 entering the image is threaded explicitly because in
the C source it is a static local of process_scanline, set to 0
only at program start and never reset between images. -/
def decompress_image (jpg_width jpg_height comps w h : ℕ)
    (scanOf : ℕ → ℕ → ℕ) (lasty0 : ℕ) : Image × ℕ :=
  let img := init_image (clear (malloc_image w h)) jpg_width jpg_height comps
  let st := process_rows scanOf comps jpg_height (img, lasty0)
  (normalize st.1, st.2)

/-- The derive-width branch of calc_aspect_ratio (jtoa.c lines 118-125):
width = ROUND(2.0f * height * jpeg_width / jpeg_height), and while the
result is 0 the fixed height is bumped and the width recomputed.  The
C source recurses unboundedly; here the loop carries fuel and returns
none if exhausted. -/
def derive_width_loop : ℕ → ℕ → ℕ → ℕ → Option (ℕ × ℕ)
  | 0, _, _, _ => none
  | fuel+1, jw, jh, h =>
      let w : ℕ := (ROUND (2 * (h : ℚ) * (jw : ℚ) / (jh : ℚ))).toNat
      if w = 0 then derive_width_loop fuel jw jh (h + 1) else some (w, h)

/-- The derive-height branch of calc_aspect_ratio (jtoa.c lines 126-133):
height = ROUND(0.5f * width * jpeg_height / jpeg_width), and while the
result is 0 the fixed width is bumped and the height recomputed. -/
def derive_height_loop : ℕ → ℕ → ℕ → ℕ → Option (ℕ × ℕ)
  | 0, _, _, _ => none
  | fuel+1, jw, jh, w =>
      let h : ℕ := (ROUND (1/2 * (w : ℚ) * (jh : ℚ) / (jw : ℚ))).toNat
      if h = 0 then derive_height_loop fuel jw jh (w + 1) else some (w, h)

/-- calc_aspect_ratio (jtoa.c lines 116-134): derives the missing
output dimension according to the auto_width / auto_height counters
(C truthiness: a counter is set iff it is nonzero).  Returns the
resolved (width, height). -/
def calc_aspect_ratio (auto_width auto_height : ℕ) (jw jh : ℕ)
    (w h : ℕ) (fuel : ℕ) : Option (ℕ × ℕ) :=
  if auto_width ≠ 0 ∧ auto_height = 0 then derive_width_loop fuel jw jh h
  else if auto_width = 0 ∧ auto_height ≠ 0 then derive_height_loop fuel jw jh w
  else some (w, h)

/-- The three sizing options of parse_options that touch the
auto_width / auto_height counters (jtoa.c lines 75-77). -/
inductive SizeOpt
  | width
  | height
  | size
deriving DecidableEq

/-- One step of parse_options on the sizing counters (jtoa.c lines
75-77): a width option increments auto_height, a height option
increments auto_width, a size option zeroes both. -/
def size_step : ℕ × ℕ → SizeOpt → ℕ × ℕ
  | (aw, ah), SizeOpt.width => (aw, ah + 1)
  | (aw, ah), SizeOpt.height => (aw + 1, ah)
  | _, SizeOpt.size => (0, 0)

/-- The final value of (auto_width, auto_height) after parse_options:
defaults auto_width = 0, auto_height = 1 (jtoa.c lines 21-22), the
per-option steps, then the fixups of jtoa.c lines 98-103. -/
def parse_sizing (opts : List SizeOpt) : ℕ × ℕ :=
  let p := opts.foldl size_step (0, 1)
  if p.1 = 1 ∧ p.2 = 1 then (p.1, 0)
  else if p.1 = 2 ∧ p.2 = 1 then (0, 0)
  else p

/-- The quantizer of print_image (jtoa.c line 146):
pos = ROUND(chars * intensity). -/
def quant_pos (chars : ℕ) (v : ℚ) : ℤ := ROUND ((chars : ℚ) * v)

/-- The palette index emitted by print_image (jtoa.c line 147):
ascii_palette[!invert ? chars - pos : pos]. -/
def palette_index (chars : ℕ) (invert : Bool) (v : ℚ) : ℤ :=
  if invert then quant_pos chars v else (chars : ℤ) - quant_pos chars v

/-- The character printed by print_image (jtoa.c lines 143-151) at
output line y, column x.  The loop body reads
pixel[(!flipy ? y : h-y-1)*w + x] and stores the palette character at
line position (!flipx ? x : w-x-1); since that write mapping is its own
inverse on [0, w), the character ending up at final column x comes
from source column (!flipx ? x : w-x-1). -/
def render_cell (i : Image) (pal : ℤ → Char) (chars : ℕ)
    (invert flipx flipy : Bool) (y x : ℕ) : Char :=
  pal (palette_index chars invert
    (i.pixel ((if flipy then i.height - y - 1 else y) * i.width +
              (if flipx then i.width - x - 1 else x))))

/-- An argument of the main file loop (jtoa.c lines 300-328): an option
(skipped there), the operand "-" for standard input, or a file path
operand together with whether fopen succeeds on it. -/
inductive Arg
  | flag : Arg
  | dash : Arg
  | file : String → Bool → Arg

/-- Whether every file operand in the list can be opened. -/
def all_openable : List Arg → Bool
  | [] => true
  | Arg.file _ ok :: rest => ok && all_openable rest
  | _ :: rest => all_openable rest

/-- The operands a full pass of the main loop would decompress, in
order ("-" stands for standard input). -/
def processed_of : List Arg → List String
  | [] => []
  | Arg.flag :: rest => processed_of rest
  | Arg.dash :: rest => "-" :: processed_of rest
  | Arg.file nm _ :: rest => nm :: processed_of rest

/-- The main file loop of jtoa.c (lines 300-330): options are skipped,
"-" decompresses standard input (decompress always returns 0, so the
loop continues), an openable file is decompressed and the loop
continues, and a file that cannot be opened prints an error to stderr
and returns 1 immediately, processing nothing further.  Result:
(exit code, operands decompressed, stderr lines). -/
def run_files : List Arg → ℕ × List String × List String
  | [] => (0, [], [])
  | Arg.flag :: rest => run_files rest
  | Arg.dash :: rest =>
      let r := run_files rest
      (r.1, "-" :: r.2.1, r.2.2)
  | Arg.file nm true :: rest =>
      let r := run_files rest
      (r.1, nm :: r.2.1, r.2.2)
  | Arg.file nm false :: _ => (1, [], ["Can\x27t open " ++ nm])

/-- A one-cell grid whose single row received two contributions; used to
exhibit that normalize is not idempotent. -/
def twice_counted : Image :=
  { width := 1, height := 1, pixel := fun _ => 2, yadds := fun _ => 2,
    resize_y := 0, resize_x := 0, lookup_resx := fun _ => 0 }

/-- Invariant of the accumulation grid under a uniform source: every
cell of every row holds the contribution count of its row times the
common per-contribution intensity k. -/
def rowsum_inv (w : ℕ) (k : ℚ) (p : ℕ → ℚ) (ya : ℕ → ℕ) : Prop :=
  ∀ d x, x < w → p (d * w + x) = ya d * k

lemma CINT_of_nonneg {x : ℚ} (hx : 0 ≤ x) : CINT x = ⌊x⌋ := if_pos hx

lemma ROUND_of_nonneg {x : ℚ} (hx : 0 ≤ x) : ROUND x = ⌊1/2 + x⌋ :=
  CINT_of_nonneg (by linarith)

lemma ROUND_nonneg {x : ℚ} (hx : 0 ≤ x) : 0 ≤ ROUND x := by
  rw [ROUND_of_nonneg hx]
  exact Int.floor_nonneg.2 (by linarith)

lemma ROUND_mono {x y : ℚ} (hx : 0 ≤ x) (hxy : x ≤ y) : ROUND x ≤ ROUND y := by
  rw [ROUND_of_nonneg hx, ROUND_of_nonneg (hx.trans hxy)]
  exact Int.floor_mono (by linarith)

lemma ROUND_natCast (n : ℕ) : ROUND ((n : ℕ) : ℚ) = n := by
  rw [ROUND_of_nonneg (by positivity), Int.floor_add_nat]
  norm_num

lemma CINT_div_natCast (m n : ℕ) : CINT ((m : ℚ) / (n : ℚ)) = ((m / n : ℕ) : ℤ) := by
  rw [CINT_of_nonneg (by positivity), ← Int.natCast_floor_eq_floor (by positivity),
    Nat.floor_div_eq_div]

lemma quant_pos_bounds (chars : ℕ) (v : ℚ) (h0 : 0 ≤ v) (h1 : v ≤ 1) :
    0 ≤ quant_pos chars v ∧ quant_pos chars v ≤ (chars : ℤ) := by
  have hnn : (0 : ℚ) ≤ (chars : ℚ) * v := by positivity
  unfold quant_pos
  rw [ROUND_of_nonneg hnn]
  constructor
  · exact Int.floor_nonneg.2 (by linarith)
  · have hcv : (chars : ℚ) * v ≤ (chars : ℚ) := by
      have := mul_le_mul_of_nonneg_left h1 (by positivity : (0 : ℚ) ≤ (chars : ℚ))
      linarith
    calc ⌊1/2 + (chars : ℚ) * v⌋ ≤ ⌊(1 : ℚ)/2 + (chars : ℕ)⌋ := Int.floor_mono (by linarith)
      _ = (chars : ℤ) := by rw [Int.floor_add_nat]; norm_num

/-- C4: for a palette of length chars + 1 and any cell intensity in
[0,1], print_image computes pos = round-half-up of chars * intensity,
the emitted palette index (pos when inverted, chars - pos otherwise)
always lies within [0, chars], and a fully black cell with invert unset
under the default 23-character palette yields index 22, the last
palette character. -/
theorem c4_quantizer_range (chars : ℕ) (invert : Bool) (v : ℚ)
    (hchars : 1 ≤ chars) (h0 : 0 ≤ v) (h1 : v ≤ 1) :
    quant_pos chars v = ⌊(chars : ℚ) * v + 1/2⌋ ∧
    0 ≤ palette_index chars invert v ∧
    palette_index chars invert v ≤ (chars : ℤ) ∧
    palette_index 22 false 0 = 22 ∧
    default_palette.length = 23 := by
  obtain ⟨hl, hr⟩ := quant_pos_bounds chars v h0 h1
  refine ⟨?_, ?_, ?_, ?_, by rfl⟩
  · unfold quant_pos
    rw [ROUND_of_nonneg (by positivity), add_comm]
  · unfold palette_index
    cases invert <;> simp <;> omega
  · unfold palette_index
    cases invert <;> simp <;> omega
  · norm_num [palette_index, quant_pos, ROUND, CINT]

theorem c4_quantizer_range_witness :
    quant_pos 22 (1/2 : ℚ) = ⌊(22 : ℚ) * (1/2) + 1/2⌋ ∧
    0 ≤ palette_index 22 true (1/2 : ℚ) ∧
    palette_index 22 true (1/2 : ℚ) ≤ (22 : ℤ) :=
  ⟨(c4_quantizer_range 22 true (1/2) (by norm_num) (by norm_num) (by norm_num)).1,
   (c4_quantizer_range 22 true (1/2) (by norm_num) (by norm_num) (by norm_num)).2.1,
   (c4_quantizer_range 22 true (1/2) (by norm_num) (by norm_num) (by norm_num)).2.2.1⟩

lemma normalize_pixel (i : Image) (y x : ℕ) (hy : y < i.height) (hx : x < i.width) :
    (normalize i).pixel (y * i.width + x) =
      if i.yadds y ≠ 0 then i.pixel (y * i.width + x) / (i.yadds y : ℚ)
      else i.pixel (y * i.width + x) := by
  have hw : 0 < i.width := by omega
  have hidx : y * i.width + x < i.width * i.height := by
    have h1 : y * i.width + x < (y + 1) * i.width := by
      rw [Nat.succ_mul]; omega
    have h2 : (y + 1) * i.width ≤ i.height * i.width :=
      Nat.mul_le_mul_right _ hy
    rw [mul_comm i.width i.height]
    omega
  have hdiv : (y * i.width + x) / i.width = y := by
    rw [mul_comm y i.width, Nat.mul_add_div hw, Nat.div_eq_of_lt hx]
    omega
  by_cases hne : i.yadds y ≠ 0
  · simp [Jtoa.normalize, hidx, hdiv, hne]
  · simp only [ne_eq, not_not] at hne
    simp [Jtoa.normalize, hidx, hdiv, hne]

/-- C5: normalize is not idempotent (the one-cell grid twice_counted,
whose row count is 2, changes again on a second run), and a single run
divides every cell of a row with nonzero count by exactly that count
while leaving rows with zero count unmodified. -/
theorem c5_normalize_once (i : Image) (y x : ℕ) (hy : y < i.height) (hx : x < i.width) :
    (1 < twice_counted.yadds 0 ∧
      (normalize (normalize twice_counted)).pixel 0 ≠ (normalize twice_counted).pixel 0) ∧
    (i.yadds y ≠ 0 →
      (normalize i).pixel (y * i.width + x) = i.pixel (y * i.width + x) / (i.yadds y : ℚ)) ∧
    (i.yadds y = 0 → (normalize i).pixel (y * i.width + x) = i.pixel (y * i.width + x)) := by
  refine ⟨⟨by norm_num [twice_counted],
           by norm_num [Jtoa.normalize, twice_counted]⟩, ?_, ?_⟩
  · intro hne
    rw [normalize_pixel i y x hy hx, if_pos hne]
  · intro hz
    rw [normalize_pixel i y x hy hx, if_neg (not_not_intro hz)]

theorem c5_normalize_once_witness :
    (1 < twice_counted.yadds 0 ∧
      (normalize (normalize twice_counted)).pixel 0 ≠ (normalize twice_counted).pixel 0) ∧
    (twice_counted.yadds 0 ≠ 0 →
      (normalize twice_counted).pixel (0 * twice_counted.width + 0) =
        twice_counted.pixel (0 * twice_counted.width + 0) / (twice_counted.yadds 0 : ℚ)) :=
  ⟨(c5_normalize_once twice_counted 0 0 (by norm_num [twice_counted]) (by norm_num [twice_counted])).1,
   (c5_normalize_once twice_counted 0 0 (by norm_num [twice_counted]) (by norm_num [twice_counted])).2.1⟩

/-- C6: flips act only at render time, and applying the flip index
mapping (y to h-1-y, or x to w-1-x) once more to the output rendered
with the flag set reproduces the unflipped rendered output exactly, on
each axis. -/
theorem c6_flip_involution (i : Image) (pal : ℤ → Char) (chars : ℕ)
    (invert fx fy : Bool) (y x : ℕ) (hy : y < i.height) (hx : x < i.width) :
    render_cell i pal chars invert fx true (i.height - y - 1) x =
      render_cell i pal chars invert fx false y x ∧
    render_cell i pal chars invert true fy y (i.width - x - 1) =
      render_cell i pal chars invert false fy y x := by
  have hrow : i.height - (i.height - y - 1) - 1 = y := by omega
  have hcol : i.width - (i.width - x - 1) - 1 = x := by omega
  constructor
  · simp [render_cell, hrow]
  · simp [render_cell, hcol]

theorem c6_flip_involution_witness :
    render_cell twice_counted (fun _ => Char.ofNat 77) 22 false false true
        (twice_counted.height - 0 - 1) 0 =
      render_cell twice_counted (fun _ => Char.ofNat 77) 22 false false false 0 0 :=
  (c6_flip_involution twice_counted (fun _ => Char.ofNat 77) 22 false false false 0 0
    (by norm_num [twice_counted]) (by norm_num [twice_counted])).1

/-- C7 counterexample: for a source image of height 1 (and any
destination size, here 78 by 20), init_image does divide by a zero
divisor: its resize_y computation divides by output_height - 1 = 0. -/
theorem c7_division_by_zero_at_height_one :
    init_image_divisors (malloc_image 78 20) 1 = [0, 78] := by
  norm_num [init_image_divisors, malloc_image]

/-- C7 amended: for every accepted image of source height at least 2
and destination width at least 1, no division by a zero divisor occurs
in the core: both divisors of init_image are nonzero, and normalize
only ever divides by the nonzero row counts. -/
theorem c7_no_division_by_zero (i : Image) (jh : ℕ)
    (hjh : 2 ≤ jh) (hw : 1 ≤ i.width) :
    (0 : ℚ) ∉ init_image_divisors i jh ∧ ∀ q ∈ normalize_divisors i, q ≠ 0 := by
  constructor
  · intro hmem
    simp only [init_image_divisors, List.mem_cons, List.not_mem_nil, or_false] at hmem
    rcases hmem with h | h
    · have hjq : (jh : ℚ) = 1 := by linarith [h.symm ▸ (rfl : (0:ℚ) = 0)]
      have : jh = 1 := by exact_mod_cast hjq
      omega
    · have hwq : (i.width : ℚ) = 0 := h.symm
      have : i.width = 0 := by exact_mod_cast hwq
      omega
  · intro q hq
    simp only [normalize_divisors, List.mem_map, List.mem_filter, List.mem_range,
      decide_eq_true_eq] at hq
    obtain ⟨yy, ⟨_, hne⟩, hqe⟩ := hq
    rw [← hqe]
    exact_mod_cast Nat.cast_ne_zero.2 hne

theorem c7_no_division_by_zero_witness :
    (0 : ℚ) ∉ init_image_divisors (malloc_image 78 20) 2 :=
  (c7_no_division_by_zero (malloc_image 78 20) 2 (by norm_num)
    (by norm_num [malloc_image])).1

/-- C8: in the main file loop, once a named input file fails to open,
the error is written to standard error, the whole remaining batch is
aborted with exit code 1, and only the operands before the failing file
were decompressed; nothing after it is processed. -/
theorem c8_open_failure_aborts_batch (pre : List Arg) (nm : String) (rest : List Arg)
    (h : all_openable pre = true) :
    run_files (pre ++ Arg.file nm false :: rest) =
      (1, processed_of pre, ["Can\x27t open " ++ nm]) := by
  induction pre with
  | nil => rfl
  | cons a pre ih =>
    cases a with
    | flag =>
      have h' : all_openable pre = true := by simpa [all_openable] using h
      simpa [run_files, processed_of] using ih h'
    | dash =>
      have h' : all_openable pre = true := by simpa [all_openable] using h
      simp [run_files, processed_of, ih h']
    | file nm' ok =>
      have hok : ok = true ∧ all_openable pre = true := by
        simpa [all_openable, Bool.and_eq_true] using h
      rw [hok.1]
      simp [run_files, processed_of, ih hok.2]

theorem c8_open_failure_aborts_batch_witness :
    run_files [Arg.flag, Arg.dash, Arg.file "a" true,
        Arg.file "b" false, Arg.file "c" true, Arg.dash] =
      (1, ["-", "a"], ["Can\x27t open b"]) :=
  c8_open_failure_aborts_batch [Arg.flag, Arg.dash, Arg.file "a" true] "b"
    [Arg.file "c" true, Arg.dash] (by rfl)

lemma lookup_resx_val (i : Image) (jw jh comps x : ℕ) :
    (init_image i jw jh comps).lookup_resx x = ((x * jw / i.width : ℕ) : ℤ) * comps := by
  show CINT ((x : ℚ) * ((jw : ℚ) / (i.width : ℚ))) * comps = _
  rw [show (x : ℚ) * ((jw : ℚ) / (i.width : ℚ)) = ((x * jw : ℕ) : ℚ) / ((i.width : ℕ) : ℚ) by
    push_cast; ring]
  rw [CINT_div_natCast]

/-- C9: for destination width at least 1, source width at least 1 and
at least one color component, every lookup_resx entry built by
init_image equals floor(x * srcWidth / destWidth) * components, the
entries are nondecreasing in x, and for x within the destination width
each entry lies in [0, (srcWidth-1)*components], so the components-wide
sample read starting at that offset stays inside the current source
row of srcWidth*components samples. -/
theorem c9_lookup_resx_in_bounds (i : Image) (jw jh comps x : ℕ)
    (hjw : 1 ≤ jw) (hw : 1 ≤ i.width) (hc : 1 ≤ comps) (hx : x < i.width) :
    (init_image i jw jh comps).lookup_resx x = ((x * jw / i.width : ℕ) : ℤ) * comps ∧
    0 ≤ (init_image i jw jh comps).lookup_resx x ∧
    (init_image i jw jh comps).lookup_resx x ≤ (((jw - 1) * comps : ℕ) : ℤ) ∧
    (init_image i jw jh comps).lookup_resx x + comps ≤ ((jw * comps : ℕ) : ℤ) ∧
    ∀ x', x ≤ x' →
      (init_image i jw jh comps).lookup_resx x ≤ (init_image i jw jh comps).lookup_resx x' := by
  have hq : x * jw / i.width < jw := by
    rw [Nat.div_lt_iff_lt_mul (by omega), mul_comm jw i.width]
    exact mul_lt_mul_of_pos_right hx (by omega)
  refine ⟨lookup_resx_val i jw jh comps x, ?_, ?_, ?_, ?_⟩
  · rw [lookup_resx_val]; positivity
  · rw [lookup_resx_val]
    exact_mod_cast Nat.mul_le_mul_right comps (by omega)
  · rw [lookup_resx_val]
    have : (x * jw / i.width) * comps + comps ≤ jw * comps := by
      calc (x * jw / i.width) * comps + comps = (x * jw / i.width + 1) * comps := by ring
        _ ≤ jw * comps := Nat.mul_le_mul_right comps (by omega)
    exact_mod_cast this
  · intro x' hxx'
    rw [lookup_resx_val, lookup_resx_val]
    have : x * jw / i.width ≤ x' * jw / i.width :=
      Nat.div_le_div_right (Nat.mul_le_mul_right jw hxx')
    exact_mod_cast Nat.mul_le_mul_right comps this

theorem c9_lookup_resx_in_bounds_witness :
    0 ≤ (init_image (malloc_image 4 3) 3 5 2).lookup_resx 2 ∧
    (init_image (malloc_image 4 3) 3 5 2).lookup_resx 2 ≤ (((3 - 1) * 2 : ℕ) : ℤ) ∧
    (init_image (malloc_image 4 3) 3 5 2).lookup_resx 2 + 2 ≤ ((3 * 2 : ℕ) : ℤ) :=
  ⟨(c9_lookup_resx_in_bounds (malloc_image 4 3) 3 5 2 2 (by norm_num)
      (by norm_num [malloc_image]) (by norm_num) (by norm_num [malloc_image])).2.1,
   (c9_lookup_resx_in_bounds (malloc_image 4 3) 3 5 2 2 (by norm_num)
      (by norm_num [malloc_image]) (by norm_num) (by norm_num [malloc_image])).2.2.1,
   (c9_lookup_resx_in_bounds (malloc_image 4 3) 3 5 2 2 (by norm_num)
      (by norm_num [malloc_image]) (by norm_num) (by norm_num [malloc_image])).2.2.2.1⟩

lemma derive_height_loop_succ (fuel jw jh w : ℕ) :
    derive_height_loop (fuel + 1) jw jh w =
      if (ROUND (1/2 * (w : ℚ) * jh / jw)).toNat = 0
      then derive_height_loop fuel jw jh (w + 1)
      else some (w, (ROUND (1/2 * (w : ℚ) * jh / jw)).toNat) := rfl

lemma derive_height_step_eq_zero_iff (jw jh w : ℕ) (hjw : 1 ≤ jw) :
    (ROUND (1/2 * (w : ℚ) * jh / jw)).toNat = 0 ↔ w * jh < jw := by
  have hq : (0 : ℚ) ≤ 1/2 * (w : ℚ) * jh / jw := by positivity
  rw [ROUND_of_nonneg hq, Int.toNat_eq_zero]
  have hjw' : (0 : ℚ) < (jw : ℚ) := by exact_mod_cast hjw
  constructor
  · intro h
    have hlt : (1 : ℚ)/2 + 1/2 * (w : ℚ) * jh / jw < 1 := by
      by_contra hge
      have : (1 : ℤ) ≤ ⌊(1 : ℚ)/2 + 1/2 * (w : ℚ) * jh / jw⌋ := by
        rw [Int.le_floor]; push_cast; linarith
      omega
    have h2 : 1/2 * (w : ℚ) * jh / jw < 1/2 := by linarith
    rw [div_lt_iff₀ hjw'] at h2
    have hcast : (w : ℚ) * jh < (jw : ℚ) := by linarith
    exact_mod_cast hcast
  · intro h
    have hcast : (w : ℚ) * (jh : ℚ) < (jw : ℚ) := by exact_mod_cast h
    have h2 : 1/2 * (w : ℚ) * jh / jw < 1/2 := by
      rw [div_lt_iff₀ hjw']
      linarith
    have hlt : (1 : ℚ)/2 + 1/2 * (w : ℚ) * jh / jw < ((1 : ℤ) : ℚ) := by
      push_cast
      linarith
    have := Int.floor_lt.2 hlt
    omega

lemma derive_height_loop_terminates (jw jh : ℕ) (hjw : 1 ≤ jw) (hjh : 1 ≤ jh) :
    ∀ fuel w, jw ≤ w * jh + fuel →
      ∃ w' h', derive_height_loop (fuel + 1) jw jh w = some (w', h') ∧ w ≤ w' ∧
        h' = (ROUND (1/2 * (w' : ℚ) * jh / jw)).toNat ∧ 1 ≤ h' := by
  intro fuel
  induction fuel with
  | zero =>
    intro w hle
    have hnz : ¬ (ROUND (1/2 * (w : ℚ) * jh / jw)).toNat = 0 := by
      rw [derive_height_step_eq_zero_iff jw jh w hjw]
      omega
    exact ⟨w, _, by rw [derive_height_loop_succ, if_neg hnz], le_refl w, rfl,
      Nat.pos_of_ne_zero hnz⟩
  | succ fuel ih =>
    intro w hle
    by_cases hz : (ROUND (1/2 * (w : ℚ) * jh / jw)).toNat = 0
    · have hlt : w * jh < jw := (derive_height_step_eq_zero_iff jw jh w hjw).1 hz
      have hexp : (w + 1) * jh = w * jh + jh := by ring
      obtain ⟨w', h', hloop, hle', hval, hpos⟩ := ih (w + 1) (by omega)
      refine ⟨w', h', ?_, by omega, hval, hpos⟩
      rw [derive_height_loop_succ, if_pos hz]
      exact hloop
    · exact ⟨w, _, by rw [derive_height_loop_succ, if_neg hz], le_refl w, rfl,
        Nat.pos_of_ne_zero hz⟩

/-- C3: in derive-height mode (auto_width = 0, auto_height nonzero),
for any source dimensions at least 1 and requested width at least 1,
calc_aspect_ratio yields a height equal to the round-half-up
(floor of the value plus one half) of 0.5 * width * srcHeight /
srcWidth at the possibly bumped final width, the height is always at
least 1, and in particular a 100 by 50 source with width 78 yields
height 20. -/
theorem c3_derive_height (jw jh w : ℕ) (hjw : 1 ≤ jw) (hjh : 1 ≤ jh) (hw : 1 ≤ w) :
    (∃ w' h', calc_aspect_ratio 0 1 jw jh w 0 (jw + 1) = some (w', h') ∧ w ≤ w' ∧
      h' = (ROUND (1/2 * (w' : ℚ) * jh / jw)).toNat ∧
      (h' : ℤ) = ⌊1/2 * (w' : ℚ) * jh / jw + 1/2⌋ ∧ 1 ≤ h') ∧
    calc_aspect_ratio 0 1 100 50 78 0 101 = some (78, 20) := by
  constructor
  · obtain ⟨w', h', hloop, hle, hval, hpos⟩ :=
      derive_height_loop_terminates jw jh hjw hjh jw w (by omega)
    refine ⟨w', h', ?_, hle, hval, ?_, hpos⟩
    · simpa [calc_aspect_ratio] using hloop
    · have hq : (0 : ℚ) ≤ 1/2 * (w' : ℚ) * jh / jw := by positivity
      rw [hval, Int.toNat_of_nonneg (ROUND_nonneg hq), ROUND_of_nonneg hq, add_comm]
  · norm_num [calc_aspect_ratio, derive_height_loop, ROUND, CINT]
    rfl

theorem c3_derive_height_witness :
    calc_aspect_ratio 0 1 100 50 78 0 101 = some (78, 20) :=
  (c3_derive_height 100 50 78 (by norm_num) (by norm_num) (by norm_num)).2

lemma foldl_size_step (l : List SizeOpt) (hs : l.count SizeOpt.size = 0)
    (a b : ℕ) :
    l.foldl size_step (a, b) =
      (a + l.count SizeOpt.height, b + l.count SizeOpt.width) := by
  induction l generalizing a b with
  | nil => simp
  | cons o rest ih =>
    cases o with
    | width =>
      have hs' : rest.count SizeOpt.size = 0 := by
        simpa [List.count_cons] using hs
      simp [List.foldl, size_step, ih hs', List.count_cons]
      omega
    | height =>
      have hs' : rest.count SizeOpt.size = 0 := by
        simpa [List.count_cons] using hs
      simp [List.foldl, size_step, ih hs', List.count_cons]
      omega
    | size =>
      exfalso
      simp [List.count_cons] at hs

/-- C10: giving width and height each exactly once (and size never)
leaves the option counters at auto_width = 1, auto_height = 2, both
nonzero, a combination in which calc_aspect_ratio derives neither
dimension, exactly as in the size mode where both counters are 0; by
contrast giving only height once yields auto_width = 1, auto_height = 0,
the mode in which calc_aspect_ratio derives the width from the aspect
ratio. -/
theorem c10_sizing_flag_precedence :
    (∀ l : List SizeOpt, l.count SizeOpt.width = 1 → l.count SizeOpt.height = 1 →
      l.count SizeOpt.size = 0 → parse_sizing l = (1, 2)) ∧
    (∀ jw jh w h fuel, calc_aspect_ratio 1 2 jw jh w h fuel = some (w, h)) ∧
    parse_sizing [SizeOpt.size] = (0, 0) ∧
    (∀ jw jh w h fuel, calc_aspect_ratio 0 0 jw jh w h fuel = some (w, h)) ∧
    parse_sizing [SizeOpt.height] = (1, 0) ∧
    (∀ jw jh w h fuel, calc_aspect_ratio 1 0 jw jh w h fuel = derive_width_loop fuel jw jh h) := by
  refine ⟨?_, ?_, by rfl, ?_, by rfl, ?_⟩
  · intro l hw hh hs
    unfold parse_sizing
    rw [foldl_size_step l hs 0 1, hw, hh]
    rfl
  · intro jw jh w h fuel
    simp [calc_aspect_ratio]
  · intro jw jh w h fuel
    simp [calc_aspect_ratio]
  · intro jw jh w h fuel
    simp [calc_aspect_ratio]

theorem c10_sizing_flag_precedence_witness :
    parse_sizing [SizeOpt.width, SizeOpt.height] = (1, 2) ∧
    calc_aspect_ratio 1 2 100 50 30 40 101 = some (30, 40) :=
  ⟨c10_sizing_flag_precedence.1 [SizeOpt.width, SizeOpt.height]
      (by rfl) (by rfl) (by rfl),
   c10_sizing_flag_precedence.2.1 100 50 30 40 101⟩

lemma intensity_uniform (s : ℕ → ℕ) (v c off : ℕ) (hc : 1 ≤ c) (hs : ∀ j, s j = v) :
    intensity s off c = (v : ℚ) / 255 := by
  unfold intensity
  have hall : ∀ j ∈ Finset.range c, ((s (off + j) : ℕ) : ℚ) = (v : ℚ) := by
    intro j _
    rw [hs]
  rw [Finset.sum_congr rfl hall, Finset.sum_const, Finset.card_range, nsmul_eq_mul]
  have hc' : (c : ℚ) ≠ 0 := by positivity
  field_simp
  ring

lemma add_row_rowsum (w : ℕ) (k : ℚ) (contrib : ℕ → ℚ) (r : ℕ)
    (p : ℕ → ℚ) (ya : ℕ → ℕ)
    (hc : ∀ x, x < w → contrib x = k) (h : rowsum_inv w k p ya) :
    rowsum_inv w k (add_row w contrib r p) (bump ya r) := by
  intro d x hx
  unfold add_row bump
  by_cases hdr : d = r
  · subst hdr
    have hin : d * w ≤ d * w + x ∧ d * w + x < d * w + w :=
      ⟨Nat.le_add_right _ _, by omega⟩
    rw [if_pos hin, if_pos rfl, Nat.add_sub_cancel_left, h d x hx, hc x hx]
    push_cast
    ring
  · have hout : ¬ (r * w ≤ d * w + x ∧ d * w + x < r * w + w) := by
      intro hcon
      rcases Nat.lt_or_ge d r with hlt | hge
      · have h1 : (d + 1) * w ≤ r * w := Nat.mul_le_mul_right w hlt
        have h2 : (d + 1) * w = d * w + w := by ring
        omega
      · have hgt : r < d := lt_of_le_of_ne hge (Ne.symm hdr)
        have h1 : (r + 1) * w ≤ d * w := Nat.mul_le_mul_right w hgt
        have h2 : (r + 1) * w = r * w + w := by ring
        omega
    rw [if_neg hout, if_neg hdr]
    exact h d x hx

lemma scan_loop_rowsum (w : ℕ) (k : ℚ) (contrib : ℕ → ℚ)
    (hc : ∀ x, x < w → contrib x = k) :
    ∀ fuel lasty p ya, rowsum_inv w k p ya →
      rowsum_inv w k (scan_loop w contrib fuel lasty (p, ya)).1
        (scan_loop w contrib fuel lasty (p, ya)).2 := by
  intro fuel
  induction fuel with
  | zero =>
    intro lasty p ya h
    exact h
  | succ fuel ih =>
    intro lasty p ya h
    exact ih (lasty + 1) _ _ (add_row_rowsum w k contrib lasty p ya hc h)

lemma scan_loop_yadds_le (w : ℕ) (contrib : ℕ → ℚ) :
    ∀ fuel lasty p ya d, ya d ≤ (scan_loop w contrib fuel lasty (p, ya)).2 d := by
  intro fuel
  induction fuel with
  | zero =>
    intro lasty p ya d
    exact le_refl _
  | succ fuel ih =>
    intro lasty p ya d
    refine le_trans ?_ (ih (lasty + 1) (add_row w contrib lasty p) (bump ya lasty) d)
    unfold bump
    by_cases hd : d = lasty <;> simp [hd]

lemma scan_loop_yadds_cover (w : ℕ) (contrib : ℕ → ℚ) :
    ∀ fuel lasty p ya d, lasty ≤ d → d < lasty + fuel →
      1 ≤ (scan_loop w contrib fuel lasty (p, ya)).2 d := by
  intro fuel
  induction fuel with
  | zero =>
    intro lasty p ya d h1 h2
    omega
  | succ fuel ih =>
    intro lasty p ya d h1 h2
    by_cases hd : d = lasty
    · subst hd
      refine le_trans ?_ (scan_loop_yadds_le w contrib fuel (d + 1)
        (add_row w contrib d p) (bump ya d) d)
      unfold bump
      simp
    · exact ih (lasty + 1) _ _ d (by omega) (by omega)

lemma process_scanline_fst_pixel (i : Image) (l r c : ℕ) (s : ℕ → ℕ) :
    (process_scanline i l r s c).1.pixel =
      (scan_loop i.width (fun x => intensity s (i.lookup_resx x).toNat c)
        (ROUND (i.resize_y * r) + 1 - (l : ℤ)).toNat l (i.pixel, i.yadds)).1 := rfl

lemma process_scanline_fst_yadds (i : Image) (l r c : ℕ) (s : ℕ → ℕ) :
    (process_scanline i l r s c).1.yadds =
      (scan_loop i.width (fun x => intensity s (i.lookup_resx x).toNat c)
        (ROUND (i.resize_y * r) + 1 - (l : ℤ)).toNat l (i.pixel, i.yadds)).2 := rfl

lemma process_scanline_snd (i : Image) (l r c : ℕ) (s : ℕ → ℕ) :
    (process_scanline i l r s c).2 = (ROUND (i.resize_y * r)).toNat := rfl

lemma process_rows_fields (scanOf : ℕ → ℕ → ℕ) (c : ℕ) :
    ∀ n st, (process_rows scanOf c n st).1.width = st.1.width ∧
      (process_rows scanOf c n st).1.height = st.1.height ∧
      (process_rows scanOf c n st).1.resize_y = st.1.resize_y ∧
      (process_rows scanOf c n st).1.lookup_resx = st.1.lookup_resx := by
  intro n
  induction n with
  | zero =>
    intro st
    exact ⟨rfl, rfl, rfl, rfl⟩
  | succ n ih =>
    intro st
    exact ih st

lemma resize_y_nonneg (w h jw jh c : ℕ) (hh : 1 ≤ h) (hjh : 2 ≤ jh) :
    (0 : ℚ) ≤ (init_image (clear (malloc_image w h)) jw jh c).resize_y := by
  show (0 : ℚ) ≤ ((h : ℚ) - 1) / ((jh : ℚ) - 1)
  have h1 : (1 : ℚ) ≤ (h : ℚ) := by exact_mod_cast hh
  have h2 : (2 : ℚ) ≤ (jh : ℚ) := by exact_mod_cast hjh
  apply div_nonneg <;> linarith

lemma process_rows_uniform (jw jh c w h v : ℕ) (scanOf : ℕ → ℕ → ℕ)
    (hh : 1 ≤ h) (hjh : 2 ≤ jh) (hc : 1 ≤ c) (hs : ∀ r j, scanOf r j = v) :
    ∀ n, 1 ≤ n →
      (process_rows scanOf c n (init_image (clear (malloc_image w h)) jw jh c, 0)).2 =
        (ROUND (((h : ℚ) - 1) / ((jh : ℚ) - 1) * ((n - 1 : ℕ) : ℚ))).toNat ∧
      rowsum_inv w ((v : ℚ) / 255)
        (process_rows scanOf c n (init_image (clear (malloc_image w h)) jw jh c, 0)).1.pixel
        (process_rows scanOf c n (init_image (clear (malloc_image w h)) jw jh c, 0)).1.yadds ∧
      ∀ d, d ≤ (ROUND (((h : ℚ) - 1) / ((jh : ℚ) - 1) * ((n - 1 : ℕ) : ℚ))).toNat →
        1 ≤ (process_rows scanOf c n
          (init_image (clear (malloc_image w h)) jw jh c, 0)).1.yadds d := by
  have hρ : (0 : ℚ) ≤ ((h : ℚ) - 1) / ((jh : ℚ) - 1) :=
    resize_y_nonneg w h jw jh c hh hjh
  intro n
  induction n with
  | zero =>
    intro hn
    omega
  | succ n ih =>
    intro _
    rcases Nat.eq_zero_or_pos n with hn0 | hn1
    · subst hn0
      have hcontrib : ∀ x, x < w →
          intensity (scanOf 0)
            (((init_image (clear (malloc_image w h)) jw jh c).lookup_resx x).toNat) c =
            (v : ℚ) / 255 := by
        intro x _
        exact intensity_uniform (scanOf 0) v c _ hc (hs 0)
      refine ⟨?_, ?_, ?_⟩
      · show (process_scanline (init_image (clear (malloc_image w h)) jw jh c) 0 0
            (scanOf 0) c).2 = _
        rw [process_scanline_snd]
        norm_num
      · show rowsum_inv w ((v : ℚ) / 255)
          (process_scanline (init_image (clear (malloc_image w h)) jw jh c) 0 0
            (scanOf 0) c).1.pixel
          (process_scanline (init_image (clear (malloc_image w h)) jw jh c) 0 0
            (scanOf 0) c).1.yadds
        rw [process_scanline_fst_pixel, process_scanline_fst_yadds]
        exact scan_loop_rowsum w ((v : ℚ) / 255) _ hcontrib _ 0 _ _
          (fun d x _ => by norm_num [init_image, clear, malloc_image])
      · intro d hd
        show 1 ≤ (process_scanline (init_image (clear (malloc_image w h)) jw jh c) 0 0
            (scanOf 0) c).1.yadds d
        rw [process_scanline_fst_yadds]
        apply scan_loop_yadds_cover
        · omega
        · show d < 0 + (ROUND ((init_image (clear (malloc_image w h)) jw jh c).resize_y *
            ((0 : ℕ) : ℚ)) + 1 - ((0 : ℕ) : ℤ)).toNat
          have hr0 : ROUND ((init_image (clear (malloc_image w h)) jw jh c).resize_y *
              ((0 : ℕ) : ℚ)) = ROUND (((h : ℚ) - 1) / ((jh : ℚ) - 1) * ((0 : ℕ) : ℚ)) := rfl
          have hnn : 0 ≤ ROUND (((h : ℚ) - 1) / ((jh : ℚ) - 1) * ((0 : ℕ) : ℚ)) :=
            ROUND_nonneg (mul_nonneg hρ (by positivity))
          rw [hr0] at *
          omega
    · obtain ⟨ihsnd, ihinv, ihcov⟩ := ih hn1
      have hfields := process_rows_fields scanOf c n
        (init_image (clear (malloc_image w h)) jw jh c, 0)
      have hwidth : (process_rows scanOf c n
          (init_image (clear (malloc_image w h)) jw jh c, 0)).1.width = w := hfields.1
      have hry : (process_rows scanOf c n
          (init_image (clear (malloc_image w h)) jw jh c, 0)).1.resize_y =
          ((h : ℚ) - 1) / ((jh : ℚ) - 1) := hfields.2.2.1
      have hcontrib : ∀ x, x < w →
          intensity (scanOf n)
            (((process_rows scanOf c n
              (init_image (clear (malloc_image w h)) jw jh c, 0)).1.lookup_resx x).toNat) c =
            (v : ℚ) / 255 := by
        intro x _
        exact intensity_uniform (scanOf n) v c _ hc (hs n)
      have hmono : (ROUND (((h : ℚ) - 1) / ((jh : ℚ) - 1) * ((n - 1 : ℕ) : ℚ))).toNat ≤
          (ROUND (((h : ℚ) - 1) / ((jh : ℚ) - 1) * ((n : ℕ) : ℚ))).toNat := by
        apply Int.toNat_le_toNat
        apply ROUND_mono (mul_nonneg hρ (by positivity))
        apply mul_le_mul_of_nonneg_left _ hρ
        exact_mod_cast Nat.sub_le n 1
      refine ⟨?_, ?_, ?_⟩
      · show (process_scanline _ _ n (scanOf n) c).2 = _
        rw [process_scanline_snd, hry]
        norm_num
      · show rowsum_inv w ((v : ℚ) / 255)
          (process_scanline _ _ n (scanOf n) c).1.pixel
          (process_scanline _ _ n (scanOf n) c).1.yadds
        rw [process_scanline_fst_pixel, process_scanline_fst_yadds, hwidth]
        exact scan_loop_rowsum w ((v : ℚ) / 255) _ hcontrib _ _ _ _ ihinv
      · intro d hd
        show 1 ≤ (process_scanline _ _ n (scanOf n) c).1.yadds d
        rw [process_scanline_fst_yadds]
        have hfuel : (ROUND ((process_rows scanOf c n
            (init_image (clear (malloc_image w h)) jw jh c, 0)).1.resize_y * (n : ℕ)) + 1 -
            ((process_rows scanOf c n
              (init_image (clear (malloc_image w h)) jw jh c, 0)).2 : ℤ)).toNat =
            (ROUND (((h : ℚ) - 1) / ((jh : ℚ) - 1) * ((n : ℕ) : ℚ))).toNat + 1 -
            (ROUND (((h : ℚ) - 1) / ((jh : ℚ) - 1) * ((n - 1 : ℕ) : ℚ))).toNat := by
          rw [hry, ihsnd]
          have hnn : 0 ≤ ROUND (((h : ℚ) - 1) / ((jh : ℚ) - 1) * ((n : ℕ) : ℚ)) :=
            ROUND_nonneg (mul_nonneg hρ (by positivity))
          have hnn' : 0 ≤ ROUND (((h : ℚ) - 1) / ((jh : ℚ) - 1) * ((n - 1 : ℕ) : ℚ)) :=
            ROUND_nonneg (mul_nonneg hρ (by positivity))
          omega
        rcases Nat.lt_or_ge d (ROUND (((h : ℚ) - 1) / ((jh : ℚ) - 1) *
            ((n - 1 : ℕ) : ℚ))).toNat with hdlt | hdge
        · refine le_trans (ihcov d (by omega)) ?_
          exact scan_loop_yadds_le _ _ _ _ _ _ d
        · apply scan_loop_yadds_cover
          · rw [ihsnd]
            exact hdge
          · rw [hfuel, ihsnd]
            have := hd
            simp only [Nat.add_sub_cancel] at this
            omega

/-- C2 counterexample: a uniform all-white 1 by 1 source (height 1)
rendered to a 1 by 2 destination leaves destination row 1 with no
contribution, so its cell stays 0 instead of v/255 = 1; the claim
fails for source images of height 1 (where init_image moreover divides
by output_height - 1 = 0). -/
theorem c2_uniform_fails_at_source_height_one :
    (decompress_image 1 1 1 1 2 (fun _ _ => 255) 0).1.pixel (1 * 1 + 0) ≠ (255 : ℚ) / 255 := by
  norm_num [decompress_image, process_rows, process_scanline, scan_loop, add_row, bump,
    init_image, clear, malloc_image, intensity, ROUND, CINT, Jtoa.normalize]

/-- C2 amended: for every uniform source image of height at least 2
(so that the vertical ratio is well defined) in which every 8-bit
sample equals the constant v, after all source rows are consumed and
the single normalization pass has run, every destination cell holds
exactly v/255, for every destination width and height at least 1,
downsampling or upsampling alike. -/
theorem c2_uniform_image (jw jh c w h v : ℕ) (scanOf : ℕ → ℕ → ℕ)
    (hw : 1 ≤ w) (hh : 1 ≤ h) (hjh : 2 ≤ jh) (hc : 1 ≤ c)
    (hs : ∀ r j, scanOf r j = v) (y x : ℕ) (hy : y < h) (hx : x < w) :
    (decompress_image jw jh c w h scanOf 0).1.pixel (y * w + x) = (v : ℚ) / 255 := by
  obtain ⟨hsnd, hinv, hcov⟩ :=
    process_rows_uniform jw jh c w h v scanOf hh hjh hc hs jh (by omega)
  have hylast : (ROUND (((h : ℚ) - 1) / ((jh : ℚ) - 1) * ((jh - 1 : ℕ) : ℚ))).toNat = h - 1 := by
    have hden : ((jh : ℚ) - 1) ≠ 0 := by
      have : (2 : ℚ) ≤ (jh : ℚ) := by exact_mod_cast hjh
      linarith
    have hcast : ((jh - 1 : ℕ) : ℚ) = (jh : ℚ) - 1 := by
      rw [Nat.cast_sub (by omega : 1 ≤ jh), Nat.cast_one]
    have hcast2 : (h : ℚ) - 1 = ((h - 1 : ℕ) : ℚ) := by
      rw [Nat.cast_sub hh, Nat.cast_one]
    rw [hcast, div_mul_cancel₀ _ hden, hcast2, ROUND_natCast]
    exact Int.toNat_natCast _
  rw [hylast] at hcov
  have hfields := process_rows_fields scanOf c jh
    (init_image (clear (malloc_image w h)) jw jh c, 0)
  have hwidth : (process_rows scanOf c jh
      (init_image (clear (malloc_image w h)) jw jh c, 0)).1.width = w := hfields.1
  have hheight : (process_rows scanOf c jh
      (init_image (clear (malloc_image w h)) jw jh c, 0)).1.height = h := hfields.2.1
  have hya : (process_rows scanOf c jh
      (init_image (clear (malloc_image w h)) jw jh c, 0)).1.yadds y ≠ 0 := by
    have := hcov y (by omega)
    omega
  have hpix : (process_rows scanOf c jh
      (init_image (clear (malloc_image w h)) jw jh c, 0)).1.pixel (y * w + x) =
      ((process_rows scanOf c jh
        (init_image (clear (malloc_image w h)) jw jh c, 0)).1.yadds y : ℚ) * ((v : ℚ) / 255) :=
    hinv y x hx
  have hnorm := normalize_pixel (process_rows scanOf c jh
      (init_image (clear (malloc_image w h)) jw jh c, 0)).1 y x
    (by rw [hheight]; exact hy) (by rw [hwidth]; exact hx)
  rw [hwidth] at hnorm
  show (normalize (process_rows scanOf c jh
      (init_image (clear (malloc_image w h)) jw jh c, 0)).1).pixel (y * w + x) = (v : ℚ) / 255
  rw [hnorm, if_pos hya, hpix, mul_comm, mul_div_assoc,
    div_self (Nat.cast_ne_zero.mpr hya), mul_one]

theorem c2_uniform_image_witness :
    (decompress_image 3 5 2 4 3 (fun _ _ => 100) 0).1.pixel (1 * 4 + 2) = (100 : ℚ) / 255 :=
  c2_uniform_image 3 5 2 4 3 100 (fun _ _ => 100) (by norm_num) (by norm_num)
    (by norm_num) (by norm_num) (fun _ _ => rfl) 1 2 (by norm_num) (by norm_num)

/-- C1: the row cursor is NOT reset between images.  In the C source
lasty is a function-local static of process_scanline, so the value it
holds at the end of one image (here 1, for a 2-row destination) is
carried into the next image: the first scanline of the second image
then contributes nothing, leaving its destination row 0 with a single
contribution where a fresh cursor (value 0) yields two. -/
theorem c1_cursor_not_reset :
    (decompress_image 1 2 1 1 2 (fun _ _ => 255) 0).2 = 1 ∧
    (decompress_image 1 2 1 1 2 (fun _ _ => 255) 1).1.yadds 0 = 1 ∧
    (decompress_image 1 2 1 1 2 (fun _ _ => 255) 0).1.yadds 0 = 2 := by
  refine ⟨?_, ?_, ?_⟩ <;>
    norm_num [decompress_image, process_rows, process_scanline, scan_loop, add_row, bump,
      init_image, clear, malloc_image, intensity, ROUND, CINT, Jtoa.normalize]

end Jtoa
